import Mathlib

/-!
Verification of the library-resolution core of the `coderef` repository
(`src/coderef/library_resolver.py`).

Embedding choices:
* Python `float` is modelled by `ℚ` (every numeric literal of the resolver —
  0.5, 0.3, 0.2, 100.0 — and every concrete value appearing in the claims is
  exactly representable, and all claim-relevant concrete computations agree
  with IEEE double evaluation).
* Python strings are modelled by `String` / `List Char`; `str.lower` by
  `Char.toLower` (the catalog and all example questions are ASCII).
* `re` word-boundary matching (`\b`, `(?<!\w)`, `(?!\w)` over `\w`) is
  modelled positionally over `List Char`.
* Python exceptions raised while computing a confidence score are modelled by
  `Except Unit`; the external search client is a parameter
  `String → String → Except Unit (List Candidate)`.
-/

namespace Coderef

/-! ### Word-boundary matching (`re.search` with `\b` / lookaround patterns) -/

/-- Python regex `\w` (ASCII fragment): alphanumeric or underscore. -/
def isWordChar (c : Char) : Bool := c.isAlphanum || c == '_'

/-- Is the character at position `i` of `q` a word character
(out of range counts as non-word)? -/
def wordAt (q : List Char) (i : Nat) : Bool :=
  match q.get? i with
  | some c => isWordChar c
  | none => false

/-- Is the character just before gap position `i` a word character
(the start of the string counts as non-word)? -/
def prevWordAt (q : List Char) (i : Nat) : Bool :=
  if i = 0 then false else wordAt q (i - 1)

/-- Regex `\b` at gap position `i`: exactly one side of the gap is a word
character. -/
def boundaryAt (q : List Char) (i : Nat) : Bool :=
  prevWordAt q i != wordAt q i

/-- Does `k` occur literally in `q` starting at position `i`? -/
def sublistAt (q k : List Char) (i : Nat) : Bool :=
  (q.drop i).take k.length == k

/-- Start-edge condition of the pattern built by `extract_keywords`:
`\b` before the keyword when its first character is a word character,
`(?<!\w)` otherwise. -/
def startCond (q k : List Char) (i : Nat) : Bool :=
  match k.head? with
  | none => true
  | some c => if isWordChar c then boundaryAt q i else !(prevWordAt q i)

/-- End-edge condition of the pattern built by `extract_keywords`:
`\b` after the keyword when its last character is a word character,
`(?!\w)` otherwise. -/
def endCond (q k : List Char) (i : Nat) : Bool :=
  match k.getLast? with
  | none => true
  | some c => if isWordChar c then boundaryAt q (i + k.length) else !(wordAt q (i + k.length))

/-- The boundary-sensitive pattern for keyword `k` matches `q` at position `i`. -/
def matchesAt (q k : List Char) (i : Nat) : Bool :=
  sublistAt q k i && startCond q k i && endCond q k i

/-- `re.search`: the pattern for `k` matches somewhere in `q`. -/
def keywordMatches (q k : List Char) : Bool :=
  (List.range (q.length + 1)).any (matchesAt q k)

/-- `question.lower()` as a character list (ASCII). -/
def lowerChars (s : String) : List Char := s.data.map Char.toLower

/-! ### The keyword catalog (`LibraryResolver.__init__`) -/

def languages : List String :=
  ["python", "javascript", "typescript", "c++", "java", "go", "rust",
   "swift", "kotlin", "ruby", "php", "csharp"]

def frameworks : List String :=
  ["react", "vue", "angular", "svelte", "next.js", "nuxt", "django",
   "flask", "fastapi", "express", "spring", "rails", "laravel"]

def libraries : List String :=
  ["numpy", "pandas", "scikit-learn", "tensorflow", "pytorch", "lodash",
   "moment", "axios", "requests", "httpx", "jinja2", "jinja"]

/-- `self.all_keywords`: languages, then frameworks, then libraries. -/
def all_keywords : List String := languages ++ frameworks ++ libraries

/-! ### `LibraryResolver.extract_keywords` -/

/-- `extract_keywords`: collect (in catalog order) every catalog keyword whose
boundary-sensitive pattern matches the lower-cased question, then keep the
first 3 (`found[:3]`). -/
def extract_keywords (question : String) : List String :=
  let ql := lowerChars question
  (all_keywords.foldl
    (fun found k => if keywordMatches ql k.data then found ++ [k] else found) []).take 3


/-! ### Candidate records

A search result is a Python dict. The fields the resolver reads are modelled
as optional (`none` = key absent). The `name` key may additionally hold the
Python value `None` (`NameVal.pynone`), on which `.lower()` raises. -/

/-- A value stored under the `name` key of a candidate dict. -/
inductive NameVal where
  | str (s : String)
  | pynone
  deriving DecidableEq

/-- A candidate record returned by `search_library`. -/
structure Candidate where
  id : Option String
  name : Option NameVal
  title : Option String
  description : Option String
  popularity : Option ℚ
  confidence : Option ℚ
  deriving DecidableEq

/-! ### `LibraryResolver.calculate_confidence` -/

/-- `match.get("name", match.get("title", "")).lower()`: the `title` fallback
applies only when the `name` key is absent; a `None` value under `name`
raises (`AttributeError` on `.lower()`), modelled as `Except.error ()`. -/
def getName (m : Candidate) : Except Unit (List Char) :=
  match m.name with
  | some (NameVal.str s) => Except.ok (lowerChars s)
  | some NameVal.pynone => Except.error ()
  | none =>
    match m.title with
    | some t => Except.ok (lowerChars t)
    | none => Except.ok []

/-- Python substring test `needle in hay`. -/
def containsSub (hay needle : List Char) : Bool :=
  (List.range (hay.length + 1)).any (fun i => sublistAt hay needle i)

/-- The score accumulated by `calculate_confidence` before the final clamp:
per keyword, +0.5 on a name substring hit and +0.3 on a description substring
hit; then, when at least one keyword was supplied, the popularity bonus
`min(popularity / 100.0, 0.2)`. -/
def rawScore (name description : List Char) (popularity : ℚ)
    (keywords : List String) : ℚ :=
  let base := keywords.foldl
    (fun score kw =>
      let s1 := if containsSub name kw.data then score + 0.5 else score
      if containsSub description kw.data then s1 + 0.3 else s1) 0
  if keywords.length > 0 then base + min (popularity / 100) 0.2 else base

/-- The raw (pre-clamp) score of a candidate, propagating the exception
raised while reading a `None`-valued name. -/
def rawScoreOf (m : Candidate) (keywords : List String) : Except Unit ℚ := do
  let name ← getName m
  let description := lowerChars (m.description.getD (""))
  let popularity := m.popularity.getD 0
  pure (rawScore name description popularity keywords)

/-- `calculate_confidence`: the raw score clamped by `min(score, 1.0)`. -/
def calculate_confidence (m : Candidate) (keywords : List String) :
    Except Unit ℚ := do
  let s ← rawScoreOf m keywords
  pure (min s 1)


/-! ### `LibraryResolver.resolve_from_question` -/

/-- The external search client (`Context7Client.search_library`): may raise. -/
abbrev SearchFn := String → String → Except Unit (List Candidate)

/-- The inner `for result in results` loop body threaded over one keyword's
result list: each candidate has its confidence computed and stored
(`result["confidence"] = ...`) and is appended to the shared accumulator;
the first candidate whose confidence computation raises aborts the rest of
this keyword's list, keeping what was already appended. -/
def scoreResults (keywords : List String) :
    List Candidate → List Candidate → List Candidate
  | acc, [] => acc
  | acc, c :: rest =>
    match calculate_confidence c keywords with
    | Except.ok v => scoreResults keywords (acc ++ [{ c with confidence := some v }]) rest
    | Except.error _ => acc

/-- One iteration of the `for keyword in keywords` loop: call the search
client; on any exception the accumulator passes through unchanged
(`except Exception: continue`). -/
def poolStep (search : SearchFn) (keywords : List String) (question : String)
    (acc : List Candidate) (kw : String) : List Candidate :=
  match search kw question with
  | Except.ok results => scoreResults keywords acc results
  | Except.error _ => acc

/-- The pooled candidate list `all_results` built across all keywords. -/
def buildPool (search : SearchFn) (keywords : List String) (question : String) :
    List Candidate :=
  keywords.foldl (poolStep search keywords question) []

/-- `x.get("confidence", 0.0)`, the key used by the final `max`. -/
def conf (c : Candidate) : ℚ := c.confidence.getD 0

/-- One comparison step of Python `max(..., key=...)`: a later element
replaces the current best only when its key is strictly greater. -/
def pickStep (b x : Candidate) : Candidate :=
  if conf x > conf b then x else b

/-- Python `max(all_results, key=...)`: the first element attaining the
maximum key. -/
def pickBest : List Candidate → Option Candidate
  | [] => none
  | c :: rest => some (rest.foldl pickStep c)

/-- `poolStep` paired with a record of the fact that `search_library` was
invoked for this keyword (the call happens before the `try` body can fail,
and also when it raises). -/
def traceStep (search : SearchFn) (keywords : List String) (question : String)
    (st : List Candidate × List String) (kw : String) :
    List Candidate × List String :=
  match search kw question with
  | Except.ok results => (scoreResults keywords st.1 results, st.2 ++ [kw])
  | Except.error _ => (st.1, st.2 ++ [kw])

/-- `resolve_from_question`, instrumented: the second component records, in
order, every keyword for which `search_library` was actually invoked. -/
def resolveWithTrace (search : SearchFn) (question : String) :
    (Option String × ℚ) × List String :=
  let keywords := extract_keywords question
  if keywords.isEmpty then ((none, 0), [])
  else
    let step := keywords.foldl (traceStep search keywords question) ([], [])
    match pickBest step.1 with
    | none => ((none, 0), step.2)
    | some best => ((best.id, conf best), step.2)

/-- `resolve_from_question`: `(library_id, confidence)`, `(none, 0.0)` when
nothing resolves. -/
def resolve_from_question (search : SearchFn) (question : String) :
    Option String × ℚ :=
  (resolveWithTrace search question).1

/-- The keywords for which the search interface was invoked during one
resolution call. -/
def searchCalls (search : SearchFn) (question : String) : List String :=
  (resolveWithTrace search question).2

/-- The scored copy of a candidate (total helper; on the error branch the
candidate is returned unchanged, but that branch is only ever used under an
ok-ness hypothesis). -/
def scoredOf (keywords : List String) (c : Candidate) : Candidate :=
  match calculate_confidence c keywords with
  | Except.ok v => { c with confidence := some v }
  | Except.error _ => c

/-! ### Lemmas about the candidate pool -/

theorem scoreResults_acc (kws : List String) (acc rs : List Candidate) :
    scoreResults kws acc rs = acc ++ scoreResults kws [] rs := by
  induction rs generalizing acc with
  | nil => simp [scoreResults]
  | cons c rest ih =>
    simp only [scoreResults]
    cases hc : calculate_confidence c kws with
    | ok v =>
      dsimp only
      rw [ih, ih]
      simp
      exact (ih ([{ c with confidence := some v }])).symm
    | error e => simp

theorem scoreResults_all_ok (kws : List String) (acc rs : List Candidate)
    (h : ∀ c ∈ rs, ∃ v, calculate_confidence c kws = Except.ok v) :
    scoreResults kws acc rs = acc ++ rs.map (scoredOf kws) := by
  induction rs generalizing acc with
  | nil => simp [scoreResults]
  | cons c rest ih =>
    obtain ⟨v, hv⟩ := h c (by simp)
    have hrest : ∀ x ∈ rest, ∃ w, calculate_confidence x kws = Except.ok w :=
      fun x hx => h x (List.mem_cons_of_mem _ hx)
    simp only [scoreResults, hv]
    rw [scoreResults_acc, ih [] hrest]
    simp [scoredOf, hv]

theorem scoreResults_stops_at_error (kws : List String) (acc : List Candidate)
    (cs₁ : List Candidate) (bad : Candidate) (cs₂ : List Candidate)
    (h : ∀ c ∈ cs₁, ∃ v, calculate_confidence c kws = Except.ok v)
    (hbad : calculate_confidence bad kws = Except.error ()) :
    scoreResults kws acc (cs₁ ++ bad :: cs₂) = acc ++ cs₁.map (scoredOf kws) := by
  induction cs₁ generalizing acc with
  | nil => simp [scoreResults, hbad]
  | cons c rest ih =>
    obtain ⟨v, hv⟩ := h c (by simp)
    have hrest : ∀ x ∈ rest, ∃ w, calculate_confidence x kws = Except.ok w :=
      fun x hx => h x (List.mem_cons_of_mem _ hx)
    simp only [List.cons_append, scoreResults, hv, List.append_eq]
    rw [scoreResults_acc, ih [] hrest]
    simp [scoredOf, hv]

theorem mem_scoreResults (kws : List String) (acc rs : List Candidate)
    (c : Candidate) (h : c ∈ scoreResults kws acc rs) :
    c ∈ acc ∨ ∃ o ∈ rs, ∃ v, calculate_confidence o kws = Except.ok v ∧
      c = { o with confidence := some v } := by
  induction rs generalizing acc with
  | nil => exact Or.inl (by simpa [scoreResults] using h)
  | cons x rest ih =>
    simp only [scoreResults] at h
    cases hx : calculate_confidence x kws with
    | ok v =>
      simp only [hx] at h
      rcases ih (acc ++ [{ x with confidence := some v }]) h with hacc | ⟨o, ho, v', hv', hc⟩
      · rcases List.mem_append.1 hacc with h1 | h1
        · exact Or.inl h1
        · exact Or.inr ⟨x, by simp, v, hx, by simpa using h1⟩
      · exact Or.inr ⟨o, by simp [ho], v', hv', hc⟩
    | error e =>
      simp only [hx] at h
      exact Or.inl h

theorem mem_foldl_poolStep (search : SearchFn) (kws : List String) (q : String)
    (l : List String) (acc : List Candidate) (c : Candidate)
    (h : c ∈ l.foldl (poolStep search kws q) acc) :
    c ∈ acc ∨ ∃ kw ∈ l, ∃ rs, search kw q = Except.ok rs ∧
      ∃ o ∈ rs, ∃ v, calculate_confidence o kws = Except.ok v ∧
        c = { o with confidence := some v } := by
  induction l generalizing acc with
  | nil => exact Or.inl (by simpa using h)
  | cons kw rest ih =>
    simp only [List.foldl_cons] at h
    rcases ih (poolStep search kws q acc kw) h with hacc | ⟨kw', hkw', rest'⟩
    · unfold poolStep at hacc
      cases hs : search kw q with
      | ok rs =>
        simp only [hs] at hacc
        rcases mem_scoreResults kws acc rs c hacc with h1 | ⟨o, ho, v, hv, hc⟩
        · exact Or.inl h1
        · exact Or.inr ⟨kw, by simp, rs, hs, o, ho, v, hv, hc⟩
      | error e =>
        simp only [hs] at hacc
        exact Or.inl hacc
    · exact Or.inr ⟨kw', by simp [hkw'], rest'⟩

theorem mem_buildPool (search : SearchFn) (kws : List String) (q : String)
    (c : Candidate) (h : c ∈ buildPool search kws q) :
    ∃ kw ∈ kws, ∃ rs, search kw q = Except.ok rs ∧
      ∃ o ∈ rs, ∃ v, calculate_confidence o kws = Except.ok v ∧
        c = { o with confidence := some v } := by
  rcases mem_foldl_poolStep search kws q kws [] c h with h1 | h1
  · simp at h1
  · exact h1

theorem foldl_traceStep (search : SearchFn) (kws : List String) (q : String)
    (l : List String) (acc : List Candidate) (tr : List String) :
    l.foldl (traceStep search kws q) (acc, tr) =
      (l.foldl (poolStep search kws q) acc, tr ++ l) := by
  induction l generalizing acc tr with
  | nil => simp
  | cons kw rest ih =>
    simp only [List.foldl_cons, traceStep, poolStep]
    cases hs : search kw q with
    | ok rs => rw [ih]; simp
    | error e => rw [ih]; simp

/-! ### Lemmas about `pickBest` (Python `max` with a key) -/

theorem foldl_pickStep_spec (l : List Candidate) (b : Candidate) :
    (l.foldl pickStep b = b ∧ ∀ x ∈ l, conf x ≤ conf b) ∨
    (∃ pre post, l = pre ++ (l.foldl pickStep b) :: post ∧
      conf b < conf (l.foldl pickStep b) ∧
      (∀ x ∈ pre, conf x < conf (l.foldl pickStep b)) ∧
      (∀ x ∈ post, conf x ≤ conf (l.foldl pickStep b))) := by
  induction l generalizing b with
  | nil => exact Or.inl ⟨rfl, by simp⟩
  | cons x l ih =>
    by_cases hx : conf x > conf b
    · have hb : (x :: l).foldl pickStep b = l.foldl pickStep x := by
        simp [pickStep, hx]
      rcases ih x with ⟨hr, hall⟩ | ⟨pre, post, hsplit, hlt, hpre, hpost⟩
      · refine Or.inr ⟨[], l, ?_, ?_, by simp, ?_⟩
        · simp [hb, hr]
        · rw [hb, hr]; exact hx
        · intro y hy; rw [hb, hr]; exact hall y hy
      · refine Or.inr ⟨x :: pre, post, ?_, ?_, ?_, ?_⟩
        · rw [hb]; exact congrArg (List.cons x) hsplit
        · rw [hb]; exact lt_trans hx hlt
        · intro y hy
          rcases List.mem_cons.1 hy with rfl | hy'
          · rw [hb]; exact hlt
          · rw [hb]; exact hpre y hy'
        · intro y hy; rw [hb]; exact hpost y hy
    · have hb : (x :: l).foldl pickStep b = l.foldl pickStep b := by
        simp [pickStep, hx]
      have hxb : conf x ≤ conf b := not_lt.1 hx
      rcases ih b with ⟨hr, hall⟩ | ⟨pre, post, hsplit, hlt, hpre, hpost⟩
      · refine Or.inl ⟨by rw [hb, hr], ?_⟩
        intro y hy
        rcases List.mem_cons.1 hy with rfl | hy'
        · exact hxb
        · exact hall y hy'
      · refine Or.inr ⟨x :: pre, post, ?_, ?_, ?_, ?_⟩
        · rw [hb]; exact congrArg (List.cons x) hsplit
        · rw [hb]; exact hlt
        · intro y hy
          rcases List.mem_cons.1 hy with rfl | hy'
          · rw [hb]; exact lt_of_le_of_lt hxb hlt
          · rw [hb]; exact hpre y hy'
        · intro y hy; rw [hb]; exact hpost y hy

/-- `pickBest` returns the first element attaining the maximal confidence:
everything strictly before it scores strictly lower, everything in the list
scores no higher. -/
theorem pickBest_spec (l : List Candidate) (b : Candidate)
    (h : pickBest l = some b) :
    ∃ pre post, l = pre ++ b :: post ∧ (∀ x ∈ pre, conf x < conf b) ∧
      ∀ x ∈ l, conf x ≤ conf b := by
  cases l with
  | nil => simp [pickBest] at h
  | cons c rest =>
    have hb : rest.foldl pickStep c = b := by
      simpa [pickBest] using h
    rcases foldl_pickStep_spec rest c with ⟨hr, hall⟩ | ⟨pre, post, hsplit, hlt, hpre, hpost⟩
    · have hcb : c = b := by rw [← hb, hr]
      refine ⟨[], rest, by simp [hcb], by simp, ?_⟩
      intro y hy
      rcases List.mem_cons.1 hy with rfl | hy'
      · simp [hcb]
      · exact hcb ▸ hall y hy'
    · rw [hb] at hsplit hlt hpre hpost
      refine ⟨c :: pre, post, by simp [hsplit], ?_, ?_⟩
      · intro y hy
        rcases List.mem_cons.1 hy with rfl | hy'
        · exact hlt
        · exact hpre y hy'
      · intro y hy
        rcases List.mem_cons.1 hy with rfl | hy'
        · exact le_of_lt hlt
        · rw [hsplit] at hy'
          rcases List.mem_append.1 hy' with h1 | h1
          · exact le_of_lt (hpre y h1)
          · rcases List.mem_cons.1 h1 with rfl | h2
            · exact le_refl _
            · exact hpost y h2

/-- A member of a nonempty list is picked. -/
theorem pickBest_isSome (l : List Candidate) (hne : l ≠ []) :
    ∃ b, pickBest l = some b := by
  cases l with
  | nil => exact absurd rfl hne
  | cons c rest => exact ⟨rest.foldl pickStep c, rfl⟩

/-! ### Lemmas about `extract_keywords` -/

theorem foldl_append_filter (p : String → Bool) (l acc : List String) :
    l.foldl (fun found k => if p k then found ++ [k] else found) acc =
      acc ++ l.filter p := by
  induction l generalizing acc with
  | nil => simp
  | cons k rest ih =>
    simp only [List.foldl_cons]
    cases hp : p k with
    | true => rw [if_pos rfl, ih]; simp [List.filter_cons, hp]
    | false => rw [if_neg (by simp), ih]; simp [List.filter_cons, hp]

/-- `extract_keywords` is the 3-truncation of the catalog filtered, in
catalog order, by the boundary-sensitive match. -/
theorem extract_keywords_eq_filter (question : String) :
    extract_keywords question =
      (all_keywords.filter
        (fun k => keywordMatches (lowerChars question) k.data)).take 3 := by
  unfold extract_keywords
  dsimp only
  rw [foldl_append_filter]
  simp

/-! ### Lemmas about `rawScore` -/

/-- One keyword's additive contribution to the pre-clamp score. -/
def keywordScore (name description : List Char) (kw : String) : ℚ :=
  (if containsSub name kw.data then 0.5 else 0) +
  (if containsSub description kw.data then 0.3 else 0)

theorem rawScore_base_eq (name description : List Char) (l : List String)
    (a : ℚ) :
    l.foldl
      (fun score kw =>
        let s1 := if containsSub name kw.data then score + 0.5 else score
        if containsSub description kw.data then s1 + 0.3 else s1) a =
      a + (l.map (keywordScore name description)).sum := by
  induction l generalizing a with
  | nil => simp
  | cons kw rest ih =>
    simp only [List.foldl_cons, List.map_cons, List.sum_cons]
    rw [ih]
    unfold keywordScore
    split_ifs <;> ring

/-- `rawScore` as a sum of per-keyword contributions plus the (conditional)
popularity bonus. -/
theorem rawScore_eq_sum (name description : List Char) (popularity : ℚ)
    (keywords : List String) :
    rawScore name description popularity keywords =
      (keywords.map (keywordScore name description)).sum +
        (if keywords = [] then 0 else min (popularity / 100) 0.2) := by
  unfold rawScore
  rw [rawScore_base_eq]
  cases keywords with
  | nil => simp
  | cons k rest => simp [add_comm]

theorem keywordScore_nonneg (name description : List Char) (kw : String) :
    0 ≤ keywordScore name description kw := by
  unfold keywordScore
  split_ifs <;> norm_num

theorem rawScore_nonneg (name description : List Char) (popularity : ℚ)
    (keywords : List String) (hpop : 0 ≤ popularity) :
    0 ≤ rawScore name description popularity keywords := by
  rw [rawScore_eq_sum]
  have hsum : 0 ≤ (keywords.map (keywordScore name description)).sum := by
    apply List.sum_nonneg
    intro x hx
    rcases List.mem_map.1 hx with ⟨kw, _, rfl⟩
    exact keywordScore_nonneg name description kw
  have hbonus : (0 : ℚ) ≤ if keywords = [] then 0 else min (popularity / 100) 0.2 := by
    split_ifs
    · exact le_refl 0
    · exact le_min (div_nonneg hpop (by norm_num)) (by norm_num)
  exact add_nonneg hsum hbonus

/-! ### The spec-side scoring formula (for the refinement comparison)

`specConfidence` is written from the specification's words (§4.2): a sum
`S` of per-keyword contributions — 0.5 for a name substring hit, with the
name falling back to the `title` field when `name` is absent, 0.3 for a
description substring hit — plus, when at least one keyword was supplied,
the popularity bonus `min(popularity / 100, 0.2)`, the total clamped to a
maximum of 1. The spec describes candidates whose name/title are text, so
the `pynone` branch (excluded by hypothesis in the comparison theorem) is
arbitrary here. -/

/-- The lower-cased display name the spec describes (name, falling back to
`title` when `name` is absent). -/
def specLowerName (c : Candidate) : List Char :=
  match c.name with
  | some (NameVal.str s) => lowerChars s
  | some NameVal.pynone => []
  | none => lowerChars (c.title.getD (""))

/-- The scoring formula as the specification states it. -/
def specConfidence (c : Candidate) (keywords : List String) : ℚ :=
  let name := specLowerName c
  let description := lowerChars (c.description.getD (""))
  let s := (keywords.map (keywordScore name description)).sum
  let bonus := if keywords = [] then 0 else min ((c.popularity.getD 0) / 100) 0.2
  min 1 (s + bonus)

/-! ### Reduction lemmas for `calculate_confidence` -/

theorem rawScoreOf_ok (m : Candidate) (name : List Char) (kws : List String)
    (hg : getName m = Except.ok name) :
    rawScoreOf m kws =
      Except.ok (rawScore name (lowerChars (m.description.getD ("")))
        (m.popularity.getD 0) kws) := by
  unfold rawScoreOf
  rw [hg]
  rfl

theorem calculate_confidence_ok (m : Candidate) (name : List Char)
    (kws : List String) (hg : getName m = Except.ok name) :
    calculate_confidence m kws =
      Except.ok (min (rawScore name (lowerChars (m.description.getD ("")))
        (m.popularity.getD 0) kws) 1) := by
  unfold calculate_confidence
  rw [rawScoreOf_ok m name kws hg]
  rfl

theorem calculate_confidence_error (m : Candidate) (kws : List String)
    (hg : getName m = Except.error ()) :
    calculate_confidence m kws = Except.error () := by
  unfold calculate_confidence rawScoreOf
  rw [hg]
  rfl

/-! ### The claims -/

/-- C1 (amended): for every candidate whose externally supplied popularity is
non-negative (in particular absent, defaulting to 0) and every keyword list,
`calculate_confidence` returns a value in the interval [0, 1]. -/
theorem calculate_confidence_mem_unit_interval (m : Candidate)
    (keywords : List String) (v : ℚ)
    (hpop : 0 ≤ m.popularity.getD 0)
    (h : calculate_confidence m keywords = Except.ok v) :
    0 ≤ v ∧ v ≤ 1 := by
  cases hg : getName m with
  | error e =>
    cases e
    rw [calculate_confidence_error m keywords hg] at h
    exact absurd h (by simp)
  | ok name =>
    rw [calculate_confidence_ok m name keywords hg] at h
    have hv : min (rawScore name (lowerChars (m.description.getD ("")))
        (m.popularity.getD 0) keywords) 1 = v := by
      simpa using h
    constructor
    · rw [← hv]
      exact le_min (rawScore_nonneg _ _ _ _ hpop) zero_le_one
    · rw [← hv]
      exact min_le_right _ _

theorem calculate_confidence_mem_unit_interval_witness :
    calculate_confidence ⟨none, none, none, none, none, none⟩ [] = Except.ok 0 ∧
      (0 ≤ (0 : ℚ) ∧ (0 : ℚ) ≤ 1) := by
  have h : calculate_confidence ⟨none, none, none, none, none, none⟩ [] =
      Except.ok 0 := by
    rw [calculate_confidence_ok ⟨none, none, none, none, none, none⟩ [] []
      (by rfl)]
    norm_num [rawScore]
  exact ⟨h, calculate_confidence_mem_unit_interval _ _ _ (by simp) h⟩

/-- C1 (counterexample): with the unbounded, externally supplied popularity
the claim allows, `calculate_confidence` can return a negative value — at
popularity −1000 and one keyword it returns −10, outside [0, 1]. -/
theorem calculate_confidence_counterexample :
    calculate_confidence
        ⟨some ("x"), some (NameVal.str ("")), none, none, some (-1000), none⟩
        ["python"] = Except.ok (-10) ∧ (-10 : ℚ) < 0 := by
  constructor
  · rw [calculate_confidence_ok
      ⟨some ("x"), some (NameVal.str ("")), none, none, some (-1000), none⟩
      [] ["python"] (by rfl)]
    have h1 : containsSub (lowerChars ("")) (("python").data) = false := by
      decide
    have h2 : containsSub [] (("python").data) = false := by decide
    simp [rawScore, h1, h2, min_def]
    norm_num
  · norm_num

/-- C3: for every candidate whose `name` key does not hold the Python value
`None` (the spec's candidates carry text there) and every keyword list,
`calculate_confidence` returns exactly the spec's formula
`min(1, S + bonus)` — `S` summing 0.5 per name-substring keyword (name
falling back to `title` when `name` is absent) and 0.3 per
description-substring keyword, the popularity bonus
`min(popularity/100, 0.2)` added only for a non-empty keyword list.
The claim's concrete example scores 0.4. -/
theorem calculate_confidence_eq_spec :
    (∀ (c : Candidate) (keywords : List String),
      c.name ≠ some NameVal.pynone →
      calculate_confidence c keywords = Except.ok (specConfidence c keywords)) ∧
    calculate_confidence
      ⟨none, some (NameVal.str ("some-lib")), none,
       some ("A Python library for data analysis"), some 10, none⟩
      ["python"] = Except.ok 0.4 := by
  constructor
  · intro c keywords hname
    have hg : getName c = Except.ok (specLowerName c) := by
      cases hn : c.name with
      | some nv =>
        cases nv with
        | str s => simp [getName, specLowerName, hn]
        | pynone => exact absurd hn hname
      | none =>
        cases ht : c.title with
        | some t => simp [getName, specLowerName, hn, ht]
        | none => simp [getName, specLowerName, hn, ht, lowerChars]
    rw [calculate_confidence_ok c (specLowerName c) keywords hg]
    unfold specConfidence
    rw [rawScore_eq_sum, min_comm]
  · have h1 : containsSub (lowerChars ("some-lib")) (("python").data) = false := by
      decide
    have h2 : containsSub (lowerChars ("A Python library for data analysis"))
        (("python").data) = true := by decide
    rw [calculate_confidence_ok
      ⟨none, some (NameVal.str ("some-lib")), none,
       some ("A Python library for data analysis"), some 10, none⟩
      (lowerChars ("some-lib")) ["python"] (by rfl)]
    simp [rawScore, h1, h2, min_def]
    norm_num

theorem calculate_confidence_eq_spec_witness :
    (⟨none, some (NameVal.str ("some-lib")), none,
      some ("A Python library for data analysis"), some 10, none⟩ :
        Candidate).name ≠ some NameVal.pynone ∧
    calculate_confidence
      ⟨none, some (NameVal.str ("some-lib")), none,
       some ("A Python library for data analysis"), some 10, none⟩
      ["python"] =
      Except.ok (specConfidence
        ⟨none, some (NameVal.str ("some-lib")), none,
         some ("A Python library for data analysis"), some 10, none⟩
        ["python"]) :=
  ⟨by simp, calculate_confidence_eq_spec.1 _ _ (by simp)⟩

/-- C8 (counterexample): for the claim's react candidate and keyword list,
the raw (pre-clamp) score is exactly 1, so it does not exceed 1.0: the
description substring test contributes 0.3 once, not once per occurrence,
and 0.5 + 0.3 + 0.2 = 1.0 exactly. -/
theorem react_raw_score_counterexample :
    rawScoreOf
        ⟨some ("/facebook/react"), some (NameVal.str ("react")), none,
         some ("React React React React"), some 100, none⟩
        ["react"] = Except.ok 1 ∧ ¬ ((1 : ℚ) < 1) := by
  constructor
  · rw [rawScoreOf_ok
      ⟨some ("/facebook/react"), some (NameVal.str ("react")), none,
       some ("React React React React"), some 100, none⟩
      (lowerChars ("react")) ["react"] (by rfl)]
    have h1 : containsSub (lowerChars ("react")) (("react").data) = true := by
      decide
    have h2 : containsSub (lowerChars ("React React React React"))
        (("react").data) = true := by decide
    simp [rawScore, h1, h2, min_def]
    norm_num
  · norm_num

/-- C8 (amended): for the claim's react candidate and keyword list, the raw
(pre-clamp) score equals exactly 1.0 — it reaches the clamp bound without
exceeding it — and `calculate_confidence` returns exactly 1.0. -/
theorem react_confidence_exactly_one :
    rawScoreOf
        ⟨some ("/facebook/react"), some (NameVal.str ("react")), none,
         some ("React React React React"), some 100, none⟩
        ["react"] = Except.ok 1 ∧
    calculate_confidence
        ⟨some ("/facebook/react"), some (NameVal.str ("react")), none,
         some ("React React React React"), some 100, none⟩
        ["react"] = Except.ok 1 := by
  have hraw : rawScoreOf
      ⟨some ("/facebook/react"), some (NameVal.str ("react")), none,
       some ("React React React React"), some 100, none⟩
      ["react"] = Except.ok 1 := by
    rw [rawScoreOf_ok
      ⟨some ("/facebook/react"), some (NameVal.str ("react")), none,
       some ("React React React React"), some 100, none⟩
      (lowerChars ("react")) ["react"] (by rfl)]
    have h1 : containsSub (lowerChars ("react")) (("react").data) = true := by
      decide
    have h2 : containsSub (lowerChars ("React React React React"))
        (("react").data) = true := by decide
    simp [rawScore, h1, h2, min_def]
    norm_num
  refine ⟨hraw, ?_⟩
  unfold calculate_confidence
  rw [hraw]
  norm_num [min_def]

/-- C4: `extract_keywords` returns at most 3 keywords; each is a catalog
entry matching the lower-cased question under the boundary-sensitive rule;
the result is exactly the first 3 matching entries in fixed catalog order
(languages, then frameworks, then libraries); and the boundary rule rejects
"numpy" inside "numpydantic". -/
theorem extract_keywords_spec :
    (∀ (question : String),
      (extract_keywords question).length ≤ 3 ∧
      (∀ k ∈ extract_keywords question,
        k ∈ all_keywords ∧ keywordMatches (lowerChars question) k.data = true) ∧
      extract_keywords question =
        (all_keywords.filter
          (fun k => keywordMatches (lowerChars question) k.data)).take 3) ∧
    keywordMatches (lowerChars ("How do I use numpydantic?")) ("numpy").data
      = false := by
  constructor
  · intro question
    refine ⟨?_, ?_, extract_keywords_eq_filter question⟩
    · rw [extract_keywords_eq_filter]
      exact List.length_take_le 3 _
    · intro k hk
      rw [extract_keywords_eq_filter] at hk
      have hk' := List.mem_of_mem_take hk
      exact ⟨(List.mem_filter.1 hk').1, (List.mem_filter.1 hk').2⟩
  · decide

theorem extract_keywords_spec_witness :
    (("numpy" : String) ∈ extract_keywords ("How do I use numpy?")) ∧
    (("numpy" : String) ∈ all_keywords ∧
      keywordMatches (lowerChars ("How do I use numpy?"))
        (("numpy" : String)).data = true) :=
  ⟨by decide,
    (extract_keywords_spec.1 ("How do I use numpy?")).2.1 ("numpy") (by decide)⟩

/-- Unfolding of the resolver when no keyword was extracted. -/
theorem resolveWithTrace_nil (search : SearchFn) (q : String)
    (h : extract_keywords q = []) :
    resolveWithTrace search q = ((none, 0), []) := by
  unfold resolveWithTrace
  rw [h]
  rfl

/-- Unfolding of the resolver once the extracted keyword list is known to be
`k :: rest`: the pool is built across all keywords, the stable max is taken,
and every keyword was searched. -/
theorem resolveWithTrace_cons (search : SearchFn) (q k : String)
    (rest : List String) (hkw : extract_keywords q = k :: rest) :
    resolveWithTrace search q =
      (match pickBest (buildPool search (k :: rest) q) with
       | none => ((none, 0), k :: rest)
       | some best => ((best.id, conf best), k :: rest)) := by
  unfold resolveWithTrace
  rw [hkw]
  have hfold := foldl_traceStep search (k :: rest) q (k :: rest) [] []
  simp only [List.isEmpty_cons, Bool.false_eq_true, if_false, hfold]
  rfl

/-- C7: when no catalog keyword occurs in the question, `extract_keywords`
is empty and `resolve_from_question` returns `(none, 0.0)` with zero
invocations of the search interface. -/
theorem resolve_no_keywords (search : SearchFn) (q : String)
    (h : extract_keywords q = []) :
    resolve_from_question search q = (none, 0) ∧ searchCalls search q = [] := by
  unfold resolve_from_question searchCalls
  rw [resolveWithTrace_nil search q h]
  exact ⟨rfl, rfl⟩

theorem resolve_no_keywords_witness :
    extract_keywords ("How do I write a function?") = [] ∧
    resolve_from_question (fun _ _ => Except.ok [])
      ("How do I write a function?") = (none, 0) ∧
    searchCalls (fun _ _ => Except.ok []) ("How do I write a function?") = [] := by
  have h : extract_keywords ("How do I write a function?") = [] := by decide
  have hr := resolve_no_keywords (fun _ _ => Except.ok [])
    ("How do I write a function?") h
  exact ⟨h, hr.1, hr.2⟩

/-- C2: assuming the external-interface contract that every returned
candidate record exposes an `id` field, the identifier returned by
`resolve_from_question` is present if and only if the pooled candidate list
is non-empty, and an empty pool yields exactly `(none, 0.0)`. -/
theorem resolve_id_iff_pool (search : SearchFn) (q : String)
    (hid : ∀ (kw : String) (rs : List Candidate),
      search kw q = Except.ok rs → ∀ c ∈ rs, c.id.isSome = true) :
    ((resolve_from_question search q).1.isSome = true ↔
      buildPool search (extract_keywords q) q ≠ []) ∧
    (buildPool search (extract_keywords q) q = [] →
      resolve_from_question search q = (none, 0)) := by
  cases hkw : extract_keywords q with
  | nil =>
    have h : resolve_from_question search q = (none, 0) := by
      unfold resolve_from_question
      rw [resolveWithTrace_nil search q hkw]
    rw [h]
    simp [buildPool]
  | cons k rest =>
    have hres := resolveWithTrace_cons search q k rest hkw
    cases hpool : buildPool search (k :: rest) q with
    | nil =>
      have : resolve_from_question search q = (none, 0) := by
        unfold resolve_from_question
        rw [hres, hpool]
        rfl
      rw [this]
      simp
    | cons c cs =>
      obtain ⟨b, hb⟩ := pickBest_isSome (c :: cs) (by simp)
      have hres' : resolve_from_question search q = (b.id, conf b) := by
        unfold resolve_from_question
        rw [hres, hpool, hb]
      obtain ⟨pre, post, hsplit, _, _⟩ := pickBest_spec (c :: cs) b hb
      have hmem : b ∈ buildPool search (k :: rest) q := by
        rw [hpool, hsplit]
        simp
      obtain ⟨kw, _, rs, hrs, o, ho, v, _, hbo⟩ :=
        mem_buildPool search (k :: rest) q b hmem
      have hbid : b.id.isSome = true := by
        rw [hbo]
        exact hid kw rs hrs o ho
      constructor
      · rw [hres']
        simp [hbid]
      · intro hcontra
        exact absurd hcontra (by simp)

/-- The spec's end-to-end react fixture: a search client that always
returns the single documented react candidate. -/
def reactResult : Candidate :=
  ⟨some ("/facebook/react"), some (NameVal.str ("react")), none,
   some ("React JavaScript library"), some 95, none⟩

def reactSearch : SearchFn := fun _ _ => Except.ok [reactResult]

theorem resolve_id_iff_pool_witness :
    ((resolve_from_question reactSearch ("How do I use React hooks?")).1.isSome
        = true ↔
      buildPool reactSearch (extract_keywords ("How do I use React hooks?"))
        ("How do I use React hooks?") ≠ []) ∧
    (buildPool reactSearch (extract_keywords ("How do I use React hooks?"))
        ("How do I use React hooks?") = [] →
      resolve_from_question reactSearch ("How do I use React hooks?")
        = (none, 0)) := by
  refine resolve_id_iff_pool _ _ ?_
  intro kw rs h c hc
  simp only [reactSearch] at h
  cases h
  rcases List.mem_singleton.1 hc with rfl
  rfl

/-- C5: with a non-empty extracted keyword list and a non-empty candidate
pool, `resolve_from_question` returns the identifier and confidence of the
maximum-confidence pooled candidate, ties broken by first-encountered
position (everything strictly before the winner scores strictly lower), and
every pooled candidate was scored with the FULL extracted keyword list. -/
theorem resolve_selects_stable_max (search : SearchFn) (q : String)
    (hkw : extract_keywords q ≠ [])
    (hpool : buildPool search (extract_keywords q) q ≠ []) :
    ∃ b pre post,
      resolve_from_question search q = (b.id, conf b) ∧
      buildPool search (extract_keywords q) q = pre ++ b :: post ∧
      (∀ x ∈ pre, conf x < conf b) ∧
      (∀ x ∈ buildPool search (extract_keywords q) q, conf x ≤ conf b) ∧
      (∀ c ∈ buildPool search (extract_keywords q) q,
        ∃ kw ∈ extract_keywords q, ∃ rs, search kw q = Except.ok rs ∧
          ∃ o ∈ rs, ∃ v,
            calculate_confidence o (extract_keywords q) = Except.ok v ∧
            c = { o with confidence := some v }) := by
  cases hk : extract_keywords q with
  | nil => exact absurd hk hkw
  | cons k rest =>
    rw [hk] at hpool
    obtain ⟨b, hb⟩ := pickBest_isSome _ hpool
    obtain ⟨pre, post, hsplit, hpre, hall⟩ :=
      pickBest_spec (buildPool search (k :: rest) q) b hb
    refine ⟨b, pre, post, ?_, hsplit, hpre, hall, ?_⟩
    · unfold resolve_from_question
      rw [resolveWithTrace_cons search q k rest hk, hb]
    · intro c hc
      exact mem_buildPool search (k :: rest) q c hc

theorem resolve_selects_stable_max_witness :
    ∃ b pre post,
      resolve_from_question reactSearch ("How do I use React hooks?")
        = (b.id, conf b) ∧
      buildPool reactSearch (extract_keywords ("How do I use React hooks?"))
        ("How do I use React hooks?") = pre ++ b :: post ∧
      (∀ x ∈ pre, conf x < conf b) ∧
      (∀ x ∈ buildPool reactSearch
          (extract_keywords ("How do I use React hooks?"))
          ("How do I use React hooks?"), conf x ≤ conf b) ∧
      (∀ c ∈ buildPool reactSearch
          (extract_keywords ("How do I use React hooks?"))
          ("How do I use React hooks?"),
        ∃ kw ∈ extract_keywords ("How do I use React hooks?"), ∃ rs,
          reactSearch kw ("How do I use React hooks?") = Except.ok rs ∧
          ∃ o ∈ rs, ∃ v,
            calculate_confidence o
              (extract_keywords ("How do I use React hooks?")) = Except.ok v ∧
            c = { o with confidence := some v }) := by
  refine resolve_selects_stable_max _ _ (by decide) ?_
  have hk : extract_keywords ("How do I use React hooks?") = ["react"] := by
    decide
  have hcalc : calculate_confidence reactResult ["react"] = Except.ok 1 := by
    rw [calculate_confidence_ok reactResult (lowerChars ("react")) ["react"]
      (by rfl)]
    have h1 : containsSub (lowerChars ("react")) (("react").data) = true := by
      decide
    have h2 : containsSub (lowerChars ("React JavaScript library"))
        (("react").data) = true := by decide
    simp [reactResult, rawScore, h1, h2, min_def]
    norm_num
  rw [hk]
  simp [buildPool, poolStep, reactSearch, scoreResults, hcalc]

/-- C6: with two extracted keywords, a search error for the first keyword is
swallowed — it contributes no candidates to the pool — and resolution
continues with the second keyword: if B's search returns one candidate, the
result is that candidate's identifier and score, never a propagated error
and never `(none, 0.0)`. (In the embedding `resolve_from_question` is total,
so no search error can escape to the caller by construction.) -/
theorem resolve_partial_failure (search : SearchFn) (q kA kB : String)
    (c : Candidate) (i : String) (v : ℚ)
    (hkw : extract_keywords q = [kA, kB])
    (hA : search kA q = Except.error ())
    (hB : search kB q = Except.ok [c])
    (hc : calculate_confidence c [kA, kB] = Except.ok v)
    (hid : c.id = some i) :
    poolStep search [kA, kB] q [] kA = [] ∧
    resolve_from_question search q = (some i, v) := by
  have hstep : poolStep search [kA, kB] q [] kA = [] := by
    unfold poolStep
    rw [hA]
  have hpool : buildPool search [kA, kB] q =
      [{ c with confidence := some v }] := by
    unfold buildPool
    simp only [List.foldl_cons, List.foldl_nil, hstep]
    unfold poolStep
    rw [hB]
    simp [scoreResults, hc]
  refine ⟨hstep, ?_⟩
  unfold resolve_from_question
  rw [resolveWithTrace_cons search q kA [kB] hkw, hpool]
  simp [pickBest, conf, hid]

theorem resolve_partial_failure_witness :
    poolStep
      (fun kw _ => if kw = ("python") then Except.error ()
        else Except.ok
          [⟨some ("/rust-lang/rust"), some (NameVal.str ("rust")), none,
            some (""), some 50, none⟩])
      [("python"), ("rust")] ("python vs rust") [] ("python") = [] ∧
    resolve_from_question
      (fun kw _ => if kw = ("python") then Except.error ()
        else Except.ok
          [⟨some ("/rust-lang/rust"), some (NameVal.str ("rust")), none,
            some (""), some 50, none⟩])
      ("python vs rust") = (some ("/rust-lang/rust"), 0.7) := by
  have hkw : extract_keywords ("python vs rust") = [("python"), ("rust")] := by
    decide
  have hc : calculate_confidence
      ⟨some ("/rust-lang/rust"), some (NameVal.str ("rust")), none,
       some (""), some 50, none⟩
      [("python"), ("rust")] = Except.ok 0.7 := by
    rw [calculate_confidence_ok
      ⟨some ("/rust-lang/rust"), some (NameVal.str ("rust")), none,
       some (""), some 50, none⟩
      (lowerChars ("rust")) [("python"), ("rust")] (by rfl)]
    have h1 : containsSub (lowerChars ("rust")) (("python").data) = false := by
      decide
    have h2 : containsSub (lowerChars ("")) (("python").data) = false := by
      decide
    have h3 : containsSub (lowerChars ("rust")) (("rust").data) = true := by
      decide
    have h4 : containsSub (lowerChars ("")) (("rust").data) = false := by
      decide
    simp [rawScore, h1, h2, h3, h4, min_def]
    norm_num
  exact resolve_partial_failure _ _ _ _ _ _ _ hkw (by simp) (by simp) hc rfl

/-- C9: per-keyword candidate processing is not atomic. If the first
keyword's search succeeds with `cs₁ ++ bad :: cs₂` where confidence
computation succeeds on every candidate of `cs₁` and raises on `bad` (for
example because `bad`'s `name` key holds `None`), then the pool keeps the
scored `cs₁`, drops `bad` and all of `cs₂`, swallows the error, and still
processes the second keyword's candidates. -/
theorem pool_partial_candidate_processing (search : SearchFn) (q k1 k2 : String)
    (cs₁ cs₂ cs : List Candidate) (bad : Candidate)
    (hkw : extract_keywords q = [k1, k2])
    (h1 : search k1 q = Except.ok (cs₁ ++ bad :: cs₂))
    (hok : ∀ c ∈ cs₁, ∃ v, calculate_confidence c [k1, k2] = Except.ok v)
    (hbad : calculate_confidence bad [k1, k2] = Except.error ())
    (h2 : search k2 q = Except.ok cs)
    (hok2 : ∀ c ∈ cs, ∃ v, calculate_confidence c [k1, k2] = Except.ok v) :
    buildPool search (extract_keywords q) q =
      cs₁.map (scoredOf [k1, k2]) ++ cs.map (scoredOf [k1, k2]) := by
  rw [hkw]
  unfold buildPool
  simp only [List.foldl_cons, List.foldl_nil]
  have hstep1 : poolStep search [k1, k2] q [] k1 = cs₁.map (scoredOf [k1, k2]) := by
    unfold poolStep
    rw [h1]
    dsimp only
    rw [scoreResults_stops_at_error [k1, k2] [] cs₁ bad cs₂ hok hbad]
    simp
  rw [hstep1]
  unfold poolStep
  rw [h2]
  exact scoreResults_all_ok [k1, k2] _ cs hok2

/-- C9 witness fixtures: one well-formed candidate, one whose `name` key
holds `None`, one that gets dropped behind it, and a second keyword's
candidate. -/
def goodOne : Candidate := ⟨some ("/d/one"), some (NameVal.str ("")), none, none, some 0, none⟩

def badCand : Candidate := ⟨some ("/d/bad"), some NameVal.pynone, none, none, some 0, none⟩

def droppedCand : Candidate := ⟨some ("/d/dropped"), some (NameVal.str ("x")), none, none, some 0, none⟩

def goodTwo : Candidate := ⟨some ("/f/two"), some (NameVal.str ("")), none, none, some 0, none⟩

def c9Search : SearchFn := fun kw _ =>
  if kw = ("django") then Except.ok [goodOne, badCand, droppedCand]
  else Except.ok [goodTwo]

theorem pool_partial_candidate_processing_witness :
    buildPool c9Search (extract_keywords ("django or flask"))
        ("django or flask") =
      [goodOne].map (scoredOf [("django"), ("flask")]) ++
        [goodTwo].map (scoredOf [("django"), ("flask")]) := by
  have hgood : ∀ c ∈ [goodOne], ∃ v,
      calculate_confidence c [("django"), ("flask")] = Except.ok v := by
    intro c hc
    rcases List.mem_singleton.1 hc with rfl
    refine ⟨0, ?_⟩
    rw [calculate_confidence_ok goodOne (lowerChars ("")) _ (by rfl)]
    simp +decide [goodOne, rawScore, min_def]
    norm_num
  have hgood2 : ∀ c ∈ [goodTwo], ∃ v,
      calculate_confidence c [("django"), ("flask")] = Except.ok v := by
    intro c hc
    rcases List.mem_singleton.1 hc with rfl
    refine ⟨0, ?_⟩
    rw [calculate_confidence_ok goodTwo (lowerChars ("")) _ (by rfl)]
    simp +decide [goodTwo, rawScore, min_def]
    norm_num
  exact pool_partial_candidate_processing c9Search ("django or flask")
    ("django") ("flask") [goodOne] [droppedCand] [goodTwo] badCand
    (by decide) (by simp [c9Search]) hgood
    (calculate_confidence_error badCand [("django"), ("flask")] (by rfl))
    (by simp +decide [c9Search]) hgood2

/-- C10: every candidate in the pool is one of the records returned by the
search interface with exactly its `confidence` key written (to the score
computed with the full keyword list, overwriting any collaborator-supplied
value); its `id`, `name`, `title`, `description` and `popularity` fields are
unchanged. (The resolver state â the keyword catalog â is a constant of the
embedding and cannot change.) -/
theorem pool_updates_only_confidence (search : SearchFn) (q : String)
    (c : Candidate) (h : c ∈ buildPool search (extract_keywords q) q) :
    ∃ kw ∈ extract_keywords q, ∃ rs, search kw q = Except.ok rs ∧
      ∃ o ∈ rs, ∃ v,
        calculate_confidence o (extract_keywords q) = Except.ok v ∧
        c.confidence = some v ∧ c.id = o.id ∧ c.name = o.name ∧
        c.title = o.title ∧ c.description = o.description ∧
        c.popularity = o.popularity := by
  obtain ⟨kw, hkw, rs, hrs, o, ho, v, hv, hco⟩ :=
    mem_buildPool search (extract_keywords q) q c h
  exact ⟨kw, hkw, rs, hrs, o, ho, v, hv, by rw [hco], by rw [hco],
    by rw [hco], by rw [hco], by rw [hco], by rw [hco]⟩

theorem pool_updates_only_confidence_witness :
    ∃ kw ∈ extract_keywords ("How do I use React hooks?"), ∃ rs,
      reactSearch kw ("How do I use React hooks?") = Except.ok rs ∧
      ∃ o ∈ rs, ∃ v,
        calculate_confidence o (extract_keywords ("How do I use React hooks?"))
          = Except.ok v ∧
        ({ reactResult with confidence := some 1 } : Candidate).confidence
          = some v ∧
        ({ reactResult with confidence := some 1 } : Candidate).id = o.id ∧
        ({ reactResult with confidence := some 1 } : Candidate).name = o.name ∧
        ({ reactResult with confidence := some 1 } : Candidate).title = o.title ∧
        ({ reactResult with confidence := some 1 } : Candidate).description
          = o.description ∧
        ({ reactResult with confidence := some 1 } : Candidate).popularity
          = o.popularity := by
  refine pool_updates_only_confidence reactSearch ("How do I use React hooks?")
    ({ reactResult with confidence := some 1 }) ?_
  have hk : extract_keywords ("How do I use React hooks?") = [("react")] := by
    decide
  have hcalc : calculate_confidence reactResult [("react")] = Except.ok 1 := by
    rw [calculate_confidence_ok reactResult (lowerChars ("react")) [("react")]
      (by rfl)]
    have h1 : containsSub (lowerChars ("react")) (("react").data) = true := by
      decide
    have h2 : containsSub (lowerChars ("React JavaScript library"))
        (("react").data) = true := by decide
    simp [reactResult, rawScore, h1, h2, min_def]
    norm_num
  rw [hk]
  simp [buildPool, poolStep, reactSearch, scoreResults, hcalc]

end Coderef
